import Mathlib

/-!
Shallow embedding of the `fluunke/wordle` terminal game (src/wordle.rs,
src/main.rs, src/error.rs).

Modelling conventions:
* A Rust `String` is modelled as a `List Char` (its sequence of Unicode
  scalar values).  Rust's `str::len` counts UTF-8 bytes, which we model as
  `utf8Len` (the sum of the UTF-8 sizes of the characters).
* Rust panics (out-of-bounds indexing, `Option::unwrap` on `None`) are
  modelled by returning `none` from an `Option`-valued function.
* The compile-time conditional `cfg!(not(debug))` in `valid_word` is
  modelled by an explicit `debug : Bool` parameter.
* The process-wide RNG used by `SliceRandom::choose` is modelled by an
  extra `Nat` parameter selecting the index (mod the list length).
-/

namespace WordleGame

/-- Per-letter classification (`enum Occurrence` in src/wordle.rs). -/
inductive Occurrence where
  | Wrong
  | Present
  | Correct
deriving DecidableEq, Repr

/-- A classified letter (`struct Guess` in src/wordle.rs). -/
structure Guess where
  letter : Char
  occurrence : Occurrence
deriving DecidableEq, Repr

/-- Word-list configuration (`enum WordList`).  The built-in list is a
bundled asset (`include_str!("../list")`), external to the sources, so the
`BuiltIn` case is resolved against a caller-supplied list in `Wordle.new`. -/
inductive WordList where
  | BuiltIn
  | Custom (words : List (List Char))
deriving DecidableEq

/-- Game configuration (`struct WordleSettings`). -/
structure WordleSettings where
  word_length : Nat
  max_guesses : Nat
  word_list : WordList
deriving DecidableEq

/-- The default settings (`WordleSettings::default`). -/
def WordleSettings.default : WordleSettings :=
  { word_length := 5, max_guesses := 5, word_list := .BuiltIn }

/-- Game state (`struct Wordle`). -/
structure Wordle where
  guesses : List (List Guess)
  word : List Char
  word_list : List (List Char)
  settings : WordleSettings
  solved : Bool
deriving DecidableEq

/-- The error enum of src/error.rs. -/
inductive WordleError where
  | NoGuessesLeft (word : List Char)
  | WrongLength (expected : Nat)
  | NotAWord (word : List Char)
deriving DecidableEq, Repr

/-- UTF-8 byte length of a string, as computed by Rust's `str::len`. -/
def utf8Len (cs : List Char) : Nat := (cs.map Char.utf8Size).sum

/-- Normalisation performed at the top of `guess_word`:
`guess.trim().to_lowercase()`.  Trimming removes leading and trailing
whitespace; lowercasing is per-character (faithful on the ASCII range). -/
def normalize (raw : List Char) : List Char :=
  (((raw.dropWhile Char.isWhitespace).reverse.dropWhile Char.isWhitespace).reverse).map
    Char.toLower

/-- Rust `v[i] = a` on a vector: in-range assignment, panic otherwise. -/
def listSet (l : List α) (i : Nat) (a : α) : Option (List α) :=
  if i < l.length then some (l.set i a) else none

/-- Rust `Iterator::position`: index of the first element satisfying `p`. -/
def position (p : α → Bool) : List α → Option Nat
  | [] => none
  | a :: as => if p a then some 0 else (position p as).map (· + 1)

/-- The first loop of the scoring code: push a `Wrong` mark carrying
`try_guess[i].unwrap()` for every `i` in `0..word_length`.  An index out
of bounds or an `unwrap` of `None` is a panic (`none`). -/
def pass0 (tg : List (Option Char)) : List Nat → Option (List Guess)
  | [] => some []
  | i :: is =>
    match tg[i]? with
    | none => none
    | some none => none
    | some (some g) => (pass0 tg is).map fun rest => ⟨g, .Wrong⟩ :: rest

/-- The second loop: mark positional matches `Correct` and blank the
consumed letter out of both `try_guess` and `try_word`. -/
def pass1 : List Nat → List Guess → List (Option Char) → List (Option Char) →
    Option (List Guess × List (Option Char) × List (Option Char))
  | [], cg, tg, tw => some (cg, tg, tw)
  | i :: is, cg, tg, tw =>
    match tg[i]?, tw[i]? with
    | none, _ => none
    | _, none => none
    | some g, some w =>
      if g = w then
        match w with
        | none => none
        | some wc => do
          let cg' ← listSet cg i ⟨wc, .Correct⟩
          let tg' ← listSet tg i none
          let tw' ← listSet tw i none
          pass1 is cg' tg' tw'
      else
        pass1 is cg tg tw

/-- The third loop: mark leftover letters that still occur in `try_word`
as `Present`, consuming the first remaining occurrence. -/
def pass2 : List Nat → List Guess → List (Option Char) → List (Option Char) →
    Option (List Guess × List (Option Char) × List (Option Char))
  | [], cg, tg, tw => some (cg, tg, tw)
  | i :: is, cg, tg, tw =>
    match tg[i]? with
    | none => none
    | some none => pass2 is cg tg tw
    | some (some g) =>
      if tw.contains (some g) then do
        let cg' ← listSet cg i ⟨g, .Present⟩
        let pos ← position (fun f => f == some g) tw
        let tw' ← listSet tw pos none
        let tg' ← listSet tg i none
        pass2 is cg' tg' tw'
      else
        pass2 is cg tg tw

/-- The scoring section of `Wordle::guess_word` (lines 103-145): the three
index loops over `0..word_length` on `try_word`/`try_guess`. -/
def score (L : Nat) (word guess : List Char) : Option (List Guess) := do
  let tw : List (Option Char) := word.map some
  let tg : List (Option Char) := guess.map some
  let cg ← pass0 tg (List.range L)
  let (cg1, tg1, tw1) ← pass1 (List.range L) cg tg tw
  let (cg2, _, _) ← pass2 (List.range L) cg1 tg1 tw1
  pure cg2

/-- Dictionary check (`Wordle::valid_word`):
`cfg!(not(debug)) || self.word_list.contains(&word.to_string())`. -/
def valid_word (debug : Bool) (w : Wordle) (word : List Char) : Bool :=
  !debug || w.word_list.contains word

/-- Win check (`Wordle::check_win`): compares the stored secret with the
normalised guess and sets `solved` on equality. -/
def check_win (w : Wordle) (guess : List Char) : Wordle :=
  if w.word = guess then { w with solved := true } else w

/-- The public submit operation (`Wordle::guess_word`).  Returns `none`
on a panic; otherwise the next state together with the reported error, if
any (errors are printed and leave the state untouched). -/
def guess_word (debug : Bool) (w : Wordle) (raw : List Char) :
    Option (Wordle × Option WordleError) :=
  let guess := normalize raw
  if utf8Len guess ≠ w.settings.word_length then
    some (w, some (.WrongLength w.settings.word_length))
  else if valid_word debug w guess = false then
    some (w, some (.NotAWord guess))
  else
    match score w.settings.word_length w.word guess with
    | none => none
    | some completed =>
      let w' := check_win w guess
      some ({ w' with guesses := w'.guesses ++ [completed] }, none)

/-- `SliceRandom::choose` on a slice: `none` on an empty slice, otherwise
the element at the (random) index `k % length`. -/
def choose (l : List (List Char)) (k : Nat) : Option (List Char) :=
  if l.isEmpty then none else l[k % l.length]?

/-- Constructor (`Wordle::new`).  `builtin` stands for the contents of the
bundled asset behind `WordList::BuiltIn`; `k` abstracts the RNG draw.  The
`unwrap` on `choose` panics (`none`) on an empty word list. -/
def Wordle.new (builtin : List (List Char)) (settings : WordleSettings) (k : Nat) :
    Option Wordle :=
  let word_list : List (List Char) :=
    match settings.word_list with
    | .BuiltIn => builtin
    | .Custom l => l
  match choose word_list k with
  | none => none
  | some word =>
    some { guesses := [], word := word, word_list := word_list,
           settings := settings, solved := false }

/-- Query `Wordle::guess_amount`. -/
def Wordle.guess_amount (w : Wordle) : Nat := w.guesses.length

/-- Query `Wordle::max_guesses`. -/
def Wordle.max_guesses (w : Wordle) : Nat := w.settings.max_guesses

/-- Query `Wordle::is_solved`. -/
def Wordle.is_solved (w : Wordle) : Bool := w.solved

/-- Query `Wordle::is_failed`: the guess count has reached `max_guesses`
(the `solved` flag is not consulted). -/
def Wordle.is_failed (w : Wordle) : Bool :=
  w.guesses.length == w.max_guesses

/-- The interactive loop of `main` (src/main.rs): stop with the loss
message when `is_failed`, otherwise read a line, submit it, and stop after
a win.  The finite `inputs` list models the input stream; `none` models a
panic inside `guess_word`. -/
def main_loop (debug : Bool) : Wordle → List (List Char) → Option Wordle
  | w, [] => some w
  | w, raw :: rest =>
    if w.is_failed then some w
    else
      match guess_word debug w raw with
      | none => none
      | some (w', _) => if w'.is_solved then some w' else main_loop debug w' rest

/-! Helper lemmas about the small Rust-operation models. -/

theorem listSet_eq_some {α : Type} {l : List α} {i : Nat} {a : α} {l' : List α}
    (h : listSet l i a = some l') : i < l.length ∧ l' = l.set i a := by
  unfold listSet at h
  split at h
  · exact ⟨by assumption, by injection h with h; exact h.symm⟩
  · exact absurd h (by simp)

theorem position_eq_some {α : Type} {p : α → Bool} :
    ∀ {l : List α} {i : Nat}, position p l = some i →
      ∃ a, l[i]? = some a ∧ p a = true := by
  intro l
  induction l with
  | nil => intro i h; simp [position] at h
  | cons a as ih =>
    intro i h
    unfold position at h
    split at h
    · injection h with h
      exact ⟨a, by simp [← h], by assumption⟩
    · rw [Option.map_eq_some'] at h
      obtain ⟨j, hj, rfl⟩ := h
      obtain ⟨b, hb, hpb⟩ := ih hj
      exact ⟨b, by simpa using hb, hpb⟩

theorem position_isSome {α : Type} {p : α → Bool} :
    ∀ {l : List α}, (∃ a ∈ l, p a = true) → (position p l).isSome = true := by
  intro l
  induction l with
  | nil => rintro ⟨a, ha, -⟩; simp at ha
  | cons b bs ih =>
    rintro ⟨a, ha, hpa⟩
    unfold position
    split
    · simp
    · rcases List.mem_cons.1 ha with rfl | hmem
      · simp_all
      · have := ih ⟨a, hmem, hpa⟩
        simp [Option.isSome_map]
        simpa using this

/-- Number of positions of a classified guess that carry letter `c` and a
non-`Wrong` mark. -/
def countMarked (c : Char) (cg : List Guess) : Nat :=
  cg.countP (fun g => g.letter == c && !(g.occurrence == Occurrence.Wrong))

theorem countMarked_set_le (c : Char) (cg : List Guess) (i : Nat) (e : Guess)
    (h : i < cg.length) :
    countMarked c (cg.set i e) ≤
      countMarked c cg + (if e.letter == c && !(e.occurrence == Occurrence.Wrong) then 1 else 0) := by
  unfold countMarked
  rw [List.countP_set _ _ _ _ h]
  have := Nat.sub_le (cg.countP (fun g => g.letter == c && !(g.occurrence == Occurrence.Wrong)))
    (if (fun g => g.letter == c && !(g.occurrence == Occurrence.Wrong)) cg[i] = true then 1 else 0)
  split <;> omega

theorem count_some_set_none :
    ∀ (tw : List (Option Char)) (i : Nat) (a c : Char),
      tw[i]? = some (some a) →
      (tw.set i (none : Option Char)).count (some c) + (if a = c then 1 else 0) =
        tw.count (some c) := by
  intro tw
  induction tw with
  | nil => intro i a c h; simp at h
  | cons x xs ih =>
    intro i a c h
    cases i with
    | zero =>
      simp only [List.getElem?_cons_zero, Option.some.injEq] at h
      subst h
      simp only [List.set_cons_zero, List.count_cons]
      have h1 : ((none : Option Char) == some c) = false := rfl
      rw [h1]
      by_cases hac : a = c
      · subst hac; simp
      · have : ((some a : Option Char) == some c) = false := by simp [hac]
        rw [this]; simp [hac]
    | succ j =>
      simp only [List.getElem?_cons_succ] at h
      simp only [List.set_cons_succ, List.count_cons]
      have := ih j a c h
      omega

/-- One mutation step of the scoring loops: overwriting position `i` of the
marks with letter `a` while blanking an occurrence `some a` out of the
remaining secret letters preserves the accounting bound. -/
theorem inv_step {cg cg' : List Guess} {tw tw' : List (Option Char)}
    {a : Char} {occ : Occurrence} {i pos : Nat} (K : Char → Nat)
    (hget : tw[pos]? = some (some a))
    (hcg : listSet cg i ⟨a, occ⟩ = some cg')
    (htw : listSet tw pos (none : Option Char) = some tw')
    (hI : ∀ c, countMarked c cg + tw.count (some c) ≤ K c) :
    ∀ c, countMarked c cg' + tw'.count (some c) ≤ K c := by
  intro c
  obtain ⟨hilt, rfl⟩ := listSet_eq_some hcg
  obtain ⟨hplt, rfl⟩ := listSet_eq_some htw
  have h1 := countMarked_set_le c cg i ⟨a, occ⟩ hilt
  have h2 := count_some_set_none tw pos a c hget
  have h3 := hI c
  by_cases hac : a = c
  · have h1' : countMarked c (cg.set i ⟨a, occ⟩) ≤ countMarked c cg + 1 := by
      refine le_trans h1 ?_
      split <;> omega
    rw [if_pos hac] at h2
    omega
  · have hbeq : ((⟨a, occ⟩ : Guess).letter == c) = false := by simp [hac]
    rw [hbeq, Bool.false_and, if_neg (by simp)] at h1
    rw [if_neg hac] at h2
    omega

theorem pass0_countMarked (c : Char) :
    ∀ (is : List Nat) (tg : List (Option Char)) (cg : List Guess),
      pass0 tg is = some cg → countMarked c cg = 0 := by
  intro is
  induction is with
  | nil =>
    intro tg cg h
    simp only [pass0, Option.some.injEq] at h
    simp [← h, countMarked]
  | cons i is ih =>
    intro tg cg h
    simp only [pass0] at h
    split at h
    · exact absurd h (by simp)
    · exact absurd h (by simp)
    · rename_i g hg
      rw [Option.map_eq_some'] at h
      obtain ⟨rest, hrest, h⟩ := h
      subst h
      have hpred : ((fun g : Guess => g.letter == c && !(g.occurrence == Occurrence.Wrong))
          ⟨g, .Wrong⟩) = false := by simp
      simp only [countMarked, List.countP_cons, hpred, if_false, Nat.add_zero]
      exact ih tg rest hrest

theorem pass1_count_inv (K : Char → Nat) :
    ∀ (is : List Nat) (cg : List Guess) (tg tw : List (Option Char))
      (cg' : List Guess) (tg' tw' : List (Option Char)),
      pass1 is cg tg tw = some (cg', tg', tw') →
      (∀ c, countMarked c cg + tw.count (some c) ≤ K c) →
      ∀ c, countMarked c cg' + tw'.count (some c) ≤ K c := by
  intro is
  induction is with
  | nil =>
    intro cg tg tw cg' tg' tw' h hI
    simp only [pass1, Option.some.injEq, Prod.mk.injEq] at h
    obtain ⟨rfl, rfl, rfl⟩ := h
    exact hI
  | cons i is ih =>
    intro cg tg tw cg' tg' tw' h hI
    simp only [pass1] at h
    split at h
    · exact absurd h (by simp)
    · exact absurd h (by simp)
    · split at h
      · split at h
        · exact absurd h (by simp)
        · rename_i g w wc hg hw hwc
          simp only [Option.bind_eq_bind, Option.bind_eq_some] at h
          obtain ⟨cg1, hcg1, tg1, htg1, tw1, htw1, h⟩ := h
          exact ih cg1 tg1 tw1 cg' tg' tw' h (inv_step K hw hcg1 htw1 hI)
      · exact ih cg tg tw cg' tg' tw' h hI

theorem pass2_count_inv (K : Char → Nat) :
    ∀ (is : List Nat) (cg : List Guess) (tg tw : List (Option Char))
      (cg' : List Guess) (tg' tw' : List (Option Char)),
      pass2 is cg tg tw = some (cg', tg', tw') →
      (∀ c, countMarked c cg + tw.count (some c) ≤ K c) →
      ∀ c, countMarked c cg' + tw'.count (some c) ≤ K c := by
  intro is
  induction is with
  | nil =>
    intro cg tg tw cg' tg' tw' h hI
    simp only [pass2, Option.some.injEq, Prod.mk.injEq] at h
    obtain ⟨rfl, rfl, rfl⟩ := h
    exact hI
  | cons i is ih =>
    intro cg tg tw cg' tg' tw' h hI
    simp only [pass2] at h
    split at h
    · exact absurd h (by simp)
    · exact ih cg tg tw cg' tg' tw' h hI
    · rename_i g hg
      split at h
      · simp only [Option.bind_eq_bind, Option.bind_eq_some] at h
        obtain ⟨cg1, hcg1, pos, hpos, tw1, htw1, tg1, htg1, h⟩ := h
        obtain ⟨a, ha, hpa⟩ := position_eq_some hpos
        have ha' : tw[pos]? = some (some g) := by
          have : a = some g := eq_of_beq hpa
          rw [← this]; exact ha
        exact ih cg1 tg1 tw1 cg' tg' tw' h (inv_step K ha' hcg1 htw1 hI)
      · exact ih cg tg tw cg' tg' tw' h hI

theorem count_some_map (S : List Char) (c : Char) :
    (S.map some).count (some c) = S.count c := by
  induction S with
  | nil => rfl
  | cons a l ih => simp [List.count_cons, ih]

/-- Multiplicity accounting for the whole scoring function: the number of
non-`Wrong` marks carrying a letter never exceeds that letter's number of
occurrences in the secret. -/
theorem score_count_le {L : Nat} {S G : List Char} {result : List Guess}
    (h : score L S G = some result) (c : Char) :
    countMarked c result ≤ S.count c := by
  simp only [score, Option.bind_eq_bind, Option.bind_eq_some, Option.pure_def,
    Option.some.injEq] at h
  obtain ⟨cg0, hcg0, ⟨cg1, tg1, tw1⟩, hp1, ⟨cg2, tg2, tw2⟩, hp2, h⟩ := h
  subst h
  have h0 : ∀ c, countMarked c cg0 + (S.map some).count (some c) ≤ S.count c := by
    intro c
    rw [pass0_countMarked c _ _ _ hcg0, Nat.zero_add, count_some_map]
  have h1 := pass1_count_inv (fun c => S.count c) _ _ _ _ _ _ _ hp1 h0
  have h2 := pass2_count_inv (fun c => S.count c) _ _ _ _ _ _ _ hp2 h1
  exact le_trans (Nat.le_add_right _ _) (h2 c)

theorem pass0_spec :
    ∀ (is : List Nat) (tg : List (Option Char)) (cg : List Guess),
      pass0 tg is = some cg →
      cg.length = is.length ∧
      ∀ (k i : Nat), is[k]? = some i →
        ∃ g, tg[i]? = some (some g) ∧ cg[k]? = some (⟨g, .Wrong⟩ : Guess) := by
  intro is
  induction is with
  | nil =>
    intro tg cg h
    simp only [pass0, Option.some.injEq] at h
    subst h
    refine ⟨rfl, ?_⟩
    intro k i hk
    simp at hk
  | cons i0 is ih =>
    intro tg cg h
    simp only [pass0] at h
    split at h
    · exact absurd h (by simp)
    · exact absurd h (by simp)
    · rename_i g hg
      rw [Option.map_eq_some'] at h
      obtain ⟨rest, hrest, h⟩ := h
      subst h
      obtain ⟨hlen, hspec⟩ := ih tg rest hrest
      refine ⟨by simp [hlen], ?_⟩
      intro k i hk
      cases k with
      | zero =>
        simp only [List.getElem?_cons_zero, Option.some.injEq] at hk
        subst hk
        exact ⟨g, hg, by simp⟩
      | succ k =>
        simp only [List.getElem?_cons_succ] at hk ⊢
        exact hspec k i hk

theorem pass1_sizes :
    ∀ (is : List Nat) (cg : List Guess) (tg tw : List (Option Char))
      (cg' : List Guess) (tg' tw' : List (Option Char)),
      pass1 is cg tg tw = some (cg', tg', tw') →
      cg'.length = cg.length ∧ tg'.length = tg.length ∧ tw'.length = tw.length := by
  intro is
  induction is with
  | nil =>
    intro cg tg tw cg' tg' tw' h
    simp only [pass1, Option.some.injEq, Prod.mk.injEq] at h
    obtain ⟨rfl, rfl, rfl⟩ := h
    exact ⟨rfl, rfl, rfl⟩
  | cons i is ih =>
    intro cg tg tw cg' tg' tw' h
    simp only [pass1] at h
    split at h
    · exact absurd h (by simp)
    · exact absurd h (by simp)
    · split at h
      · split at h
        · exact absurd h (by simp)
        · rename_i g w wc hg hw hwc
          simp only [Option.bind_eq_bind, Option.bind_eq_some] at h
          obtain ⟨cg1, hcg1, tg1, htg1, tw1, htw1, h⟩ := h
          obtain ⟨-, h1⟩ := listSet_eq_some hcg1
          obtain ⟨-, h2⟩ := listSet_eq_some htg1
          obtain ⟨-, h3⟩ := listSet_eq_some htw1
          obtain ⟨e1, e2, e3⟩ := ih cg1 tg1 tw1 cg' tg' tw' h
          subst h1 h2 h3
          simp_all [List.length_set]
      · exact ih cg tg tw cg' tg' tw' h

theorem pass2_sizes :
    ∀ (is : List Nat) (cg : List Guess) (tg tw : List (Option Char))
      (cg' : List Guess) (tg' tw' : List (Option Char)),
      pass2 is cg tg tw = some (cg', tg', tw') →
      cg'.length = cg.length ∧ tg'.length = tg.length ∧ tw'.length = tw.length := by
  intro is
  induction is with
  | nil =>
    intro cg tg tw cg' tg' tw' h
    simp only [pass2, Option.some.injEq, Prod.mk.injEq] at h
    obtain ⟨rfl, rfl, rfl⟩ := h
    exact ⟨rfl, rfl, rfl⟩
  | cons i is ih =>
    intro cg tg tw cg' tg' tw' h
    simp only [pass2] at h
    split at h
    · exact absurd h (by simp)
    · exact ih cg tg tw cg' tg' tw' h
    · split at h
      · simp only [Option.bind_eq_bind, Option.bind_eq_some] at h
        obtain ⟨cg1, hcg1, pos, hpos, tw1, htw1, tg1, htg1, h⟩ := h
        obtain ⟨-, h1⟩ := listSet_eq_some hcg1
        obtain ⟨-, h2⟩ := listSet_eq_some htw1
        obtain ⟨-, h3⟩ := listSet_eq_some htg1
        obtain ⟨e1, e2, e3⟩ := ih cg1 tg1 tw1 cg' tg' tw' h
        subst h1 h2 h3
        simp_all [List.length_set]
      · exact ih cg tg tw cg' tg' tw' h

theorem pass2_untouched :
    ∀ (is : List Nat) (cg : List Guess) (tg tw : List (Option Char))
      (cg' : List Guess) (tg' tw' : List (Option Char)),
      pass2 is cg tg tw = some (cg', tg', tw') →
      ∀ k, k ∉ is → cg'[k]? = cg[k]? ∧ tg'[k]? = tg[k]? := by
  intro is
  induction is with
  | nil =>
    intro cg tg tw cg' tg' tw' h k hk
    simp only [pass2, Option.some.injEq, Prod.mk.injEq] at h
    obtain ⟨rfl, rfl, rfl⟩ := h
    exact ⟨rfl, rfl⟩
  | cons i is ih =>
    intro cg tg tw cg' tg' tw' h k hk
    have hki : k ≠ i := fun he => hk (he ▸ List.mem_cons_self i is)
    have hkis : k ∉ is := fun hm => hk (List.mem_cons_of_mem i hm)
    simp only [pass2] at h
    split at h
    · exact absurd h (by simp)
    · exact ih cg tg tw cg' tg' tw' h k hkis
    · split at h
      · simp only [Option.bind_eq_bind, Option.bind_eq_some] at h
        obtain ⟨cg1, hcg1, pos, hpos, tw1, htw1, tg1, htg1, h⟩ := h
        obtain ⟨hl1, e1⟩ := listSet_eq_some hcg1
        obtain ⟨hl3, e3⟩ := listSet_eq_some htg1
        obtain ⟨ih1, ih2⟩ := ih cg1 tg1 tw1 cg' tg' tw' h k hkis
        subst e1 e3
        rw [ih1, ih2, List.getElem?_set_ne (Ne.symm hki), List.getElem?_set_ne (Ne.symm hki)]
        exact ⟨rfl, rfl⟩
      · exact ih cg tg tw cg' tg' tw' h k hkis

/-- A `Wrong` entry of the marks array always corresponds to a still
unconsumed guess letter: `try_guess[k]` holds `Some` of that letter. -/
def Aligned (cg : List Guess) (tg : List (Option Char)) : Prop :=
  ∀ (k : Nat) (e : Guess), cg[k]? = some e → e.occurrence = Occurrence.Wrong →
    tg[k]? = some (some e.letter)

/-- No entry of the marks array is `Present`. -/
def NoPresent (cg : List Guess) : Prop :=
  ∀ (k : Nat) (e : Guess), cg[k]? = some e → e.occurrence ≠ Occurrence.Present

theorem aligned_set {cg cg' : List Guess} {tg tg' : List (Option Char)}
    {i : Nat} {a : Char} {occ : Occurrence}
    (hA : Aligned cg tg) (hocc : occ ≠ Occurrence.Wrong)
    (hcg : listSet cg i ⟨a, occ⟩ = some cg')
    (htg : listSet tg i (none : Option Char) = some tg') : Aligned cg' tg' := by
  obtain ⟨hil, rfl⟩ := listSet_eq_some hcg
  obtain ⟨hjl, rfl⟩ := listSet_eq_some htg
  intro k e hk hW
  by_cases hki : k = i
  · subst hki
    rw [List.getElem?_set_self hil] at hk
    injection hk with hk
    subst hk
    exact absurd hW hocc
  · rw [List.getElem?_set_ne (Ne.symm hki)] at hk
    rw [List.getElem?_set_ne (Ne.symm hki)]
    exact hA k e hk hW

theorem pass1_aligned :
    ∀ (is : List Nat) (cg : List Guess) (tg tw : List (Option Char))
      (cg' : List Guess) (tg' tw' : List (Option Char)),
      pass1 is cg tg tw = some (cg', tg', tw') → Aligned cg tg → Aligned cg' tg' := by
  intro is
  induction is with
  | nil =>
    intro cg tg tw cg' tg' tw' h hA
    simp only [pass1, Option.some.injEq, Prod.mk.injEq] at h
    obtain ⟨rfl, rfl, rfl⟩ := h
    exact hA
  | cons i is ih =>
    intro cg tg tw cg' tg' tw' h hA
    simp only [pass1] at h
    split at h
    · exact absurd h (by simp)
    · exact absurd h (by simp)
    · split at h
      · split at h
        · exact absurd h (by simp)
        · rename_i g w wc hg hw hwc
          simp only [Option.bind_eq_bind, Option.bind_eq_some] at h
          obtain ⟨cg1, hcg1, tg1, htg1, tw1, htw1, h⟩ := h
          exact ih cg1 tg1 tw1 cg' tg' tw' h (aligned_set hA (by simp) hcg1 htg1)
      · exact ih cg tg tw cg' tg' tw' h hA

theorem pass2_aligned :
    ∀ (is : List Nat) (cg : List Guess) (tg tw : List (Option Char))
      (cg' : List Guess) (tg' tw' : List (Option Char)),
      pass2 is cg tg tw = some (cg', tg', tw') → Aligned cg tg → Aligned cg' tg' := by
  intro is
  induction is with
  | nil =>
    intro cg tg tw cg' tg' tw' h hA
    simp only [pass2, Option.some.injEq, Prod.mk.injEq] at h
    obtain ⟨rfl, rfl, rfl⟩ := h
    exact hA
  | cons i is ih =>
    intro cg tg tw cg' tg' tw' h hA
    simp only [pass2] at h
    split at h
    · exact absurd h (by simp)
    · exact ih cg tg tw cg' tg' tw' h hA
    · split at h
      · simp only [Option.bind_eq_bind, Option.bind_eq_some] at h
        obtain ⟨cg1, hcg1, pos, hpos, tw1, htw1, tg1, htg1, h⟩ := h
        exact ih cg1 tg1 tw1 cg' tg' tw' h (aligned_set hA (by simp) hcg1 htg1)
      · exact ih cg tg tw cg' tg' tw' h hA

theorem pass1_noPresent :
    ∀ (is : List Nat) (cg : List Guess) (tg tw : List (Option Char))
      (cg' : List Guess) (tg' tw' : List (Option Char)),
      pass1 is cg tg tw = some (cg', tg', tw') → NoPresent cg → NoPresent cg' := by
  intro is
  induction is with
  | nil =>
    intro cg tg tw cg' tg' tw' h hN
    simp only [pass1, Option.some.injEq, Prod.mk.injEq] at h
    obtain ⟨rfl, rfl, rfl⟩ := h
    exact hN
  | cons i is ih =>
    intro cg tg tw cg' tg' tw' h hN
    simp only [pass1] at h
    split at h
    · exact absurd h (by simp)
    · exact absurd h (by simp)
    · split at h
      · split at h
        · exact absurd h (by simp)
        · rename_i g w wc hg hw hwc
          simp only [Option.bind_eq_bind, Option.bind_eq_some] at h
          obtain ⟨cg1, hcg1, tg1, htg1, tw1, htw1, h⟩ := h
          refine ih cg1 tg1 tw1 cg' tg' tw' h ?_
          obtain ⟨hil, rfl⟩ := listSet_eq_some hcg1
          intro k e hk
          by_cases hki : k = i
          · subst hki
            rw [List.getElem?_set_self hil] at hk
            injection hk with hk
            subst hk
            simp
          · rw [List.getElem?_set_ne (Ne.symm hki)] at hk
            exact hN k e hk
      · exact ih cg tg tw cg' tg' tw' h hN

theorem pass2_split :
    ∀ (is1 is2 : List Nat) (cg : List Guess) (tg tw : List (Option Char))
      (r : List Guess × List (Option Char) × List (Option Char)),
      pass2 (is1 ++ is2) cg tg tw = some r →
      ∃ m : List Guess × List (Option Char) × List (Option Char),
        pass2 is1 cg tg tw = some m ∧ pass2 is2 m.1 m.2.1 m.2.2 = some r := by
  intro is1
  induction is1 with
  | nil =>
    intro is2 cg tg tw r h
    exact ⟨(cg, tg, tw), rfl, h⟩
  | cons i is1 ih =>
    intro is2 cg tg tw r h
    rw [List.cons_append] at h
    simp only [pass2] at h
    split at h
    · exact absurd h (by simp)
    · rename_i hg
      obtain ⟨m, hm1, hm2⟩ := ih is2 cg tg tw r h
      refine ⟨m, ?_, hm2⟩
      simp only [pass2, hg]
      exact hm1
    · rename_i g hg
      split at h
      · rename_i hcont
        simp only [Option.bind_eq_bind, Option.bind_eq_some] at h
        obtain ⟨cg1, hcg1, pos, hpos, tw1, htw1, tg1, htg1, h⟩ := h
        obtain ⟨m, hm1, hm2⟩ := ih is2 cg1 tg1 tw1 r h
        refine ⟨m, ?_, hm2⟩
        simp only [pass2, hg, if_pos hcont, Option.bind_eq_bind, hcg1, hpos, htw1, htg1,
          Option.some_bind]
        exact hm1
      · rename_i hcont
        obtain ⟨m, hm1, hm2⟩ := ih is2 cg tg tw r h
        refine ⟨m, ?_, hm2⟩
        simp only [pass2, hg, if_neg hcont]
        exact hm1

theorem pass2_zero_mono :
    ∀ (is : List Nat) (cg : List Guess) (tg tw : List (Option Char))
      (cg' : List Guess) (tg' tw' : List (Option Char)) (c : Char),
      pass2 is cg tg tw = some (cg', tg', tw') →
      tw.count (some c) = 0 →
      ∀ (k : Nat), cg'[k]? = some (⟨c, .Present⟩ : Guess) →
        cg[k]? = some (⟨c, .Present⟩ : Guess) := by
  intro is
  induction is with
  | nil =>
    intro cg tg tw cg' tg' tw' c h h0 k hk
    simp only [pass2, Option.some.injEq, Prod.mk.injEq] at h
    obtain ⟨rfl, rfl, rfl⟩ := h
    exact hk
  | cons i is ih =>
    intro cg tg tw cg' tg' tw' c h h0 k hk
    simp only [pass2] at h
    split at h
    · exact absurd h (by simp)
    · exact ih cg tg tw cg' tg' tw' c h h0 k hk
    · rename_i g hg
      split at h
      · rename_i hcont
        simp only [Option.bind_eq_bind, Option.bind_eq_some] at h
        obtain ⟨cg1, hcg1, pos, hpos, tw1, htw1, tg1, htg1, h⟩ := h
        have hgc : g ≠ c := by
          intro he
          subst he
          have hmem : (some g) ∈ tw := by
            simpa using hcont
          have := List.count_pos_iff.2 hmem
          omega
        obtain ⟨a, ha, hpa⟩ := position_eq_some hpos
        have ha' : tw[pos]? = some (some g) := by
          have : a = some g := eq_of_beq hpa
          rw [← this]; exact ha
        obtain ⟨hpl, rfl⟩ := listSet_eq_some htw1
        have h0' : (tw.set pos (none : Option Char)).count (some c) = 0 := by
          have := count_some_set_none tw pos g c ha'
          rw [if_neg hgc] at this
          omega
        have hk1 := ih cg1 tg1 _ cg' tg' tw' c h h0' k hk
        obtain ⟨hil, rfl⟩ := listSet_eq_some hcg1
        by_cases hki : k = i
        · subst hki
          rw [List.getElem?_set_self hil] at hk1
          injection hk1 with hk1
          exact absurd (congrArg Guess.letter hk1) hgc
        · rw [List.getElem?_set_ne (Ne.symm hki)] at hk1
          exact hk1
      · exact ih cg tg tw cg' tg' tw' c h h0 k hk

/-- Leftmost priority of the second scoring pass: if an earlier guess
position carrying some letter ends up `Wrong`, no later position with the
same letter can be `Present` (all remaining occurrences of the letter in
the secret were already exhausted at the earlier position). -/
theorem score_leftmost {L : Nat} {S G : List Char} {result : List Guess}
    (h : score L S G = some result) :
    ∀ (i j : Nat) (gi gj : Guess), i < j →
      result[i]? = some gi → result[j]? = some gj →
      gi.letter = gj.letter → gi.occurrence = Occurrence.Wrong →
      gj.occurrence ≠ Occurrence.Present := by
  intro i j gi gj hij hri hrj hlet hWi hPj
  simp only [score, Option.bind_eq_bind, Option.bind_eq_some, Option.pure_def,
    Option.some.injEq] at h
  obtain ⟨cg0, hcg0, ⟨cg1, tg1, tw1⟩, hp1, ⟨cg2, tg2, tw2⟩, hp2, h⟩ := h
  dsimp only at hp1 hp2 h
  subst h
  obtain ⟨hlen0, hspec0⟩ := pass0_spec _ _ _ hcg0
  obtain ⟨hlen1, -, -⟩ := pass1_sizes _ _ _ _ _ _ _ hp1
  obtain ⟨hlen2, -, -⟩ := pass2_sizes _ _ _ _ _ _ _ hp2
  have hL2 : cg2.length = L := by
    rw [hlen2, hlen1, hlen0, List.length_range]
  have hjL : j < L := by
    obtain ⟨hj, -⟩ := List.getElem?_eq_some_iff.1 hrj
    omega
  have hiL : i < L := lt_trans hij hjL
  have hA0 : Aligned cg0 (G.map some) := by
    intro k e hk hW
    have hkl : k < L := by
      obtain ⟨hkk, -⟩ := List.getElem?_eq_some_iff.1 hk
      omega
    obtain ⟨g, hgk, hck⟩ := hspec0 k k (List.getElem?_range hkl)
    rw [hk] at hck
    injection hck with hck
    rw [hck]
    exact hgk
  have hN0 : NoPresent cg0 := by
    intro k e hk
    have hkl : k < L := by
      obtain ⟨hkk, -⟩ := List.getElem?_eq_some_iff.1 hk
      omega
    obtain ⟨g, hgk, hck⟩ := hspec0 k k (List.getElem?_range hkl)
    rw [hk] at hck
    injection hck with hck
    rw [hck]
    simp
  have hA1 : Aligned cg1 tg1 := pass1_aligned _ _ _ _ _ _ _ hp1 hA0
  have hN1 : NoPresent cg1 := pass1_noPresent _ _ _ _ _ _ _ hp1 hN0
  have hdec : List.range L = List.range i ++ i :: List.range' (i + 1) (L - (i + 1)) := by
    rw [List.range_eq_range', List.range_eq_range']
    have h1 : L = (L - i) + i := by omega
    have h2 : L - i = (L - (i + 1)) + 1 := by omega
    calc List.range' 0 L = List.range' 0 ((L - i) + i) := by rw [← h1]
      _ = List.range' 0 i ++ List.range' (0 + 1 * i) (L - i) :=
          (List.range'_append 0 i (L - i) 1).symm
      _ = List.range' 0 i ++ i :: List.range' (i + 1) (L - (i + 1)) := by
          rw [h2, List.range'_succ]
          norm_num
  rw [hdec] at hp2
  obtain ⟨⟨cgA, tgA, twA⟩, hmA, hstep⟩ := pass2_split _ _ _ _ _ _ hp2
  have hjA : j ∉ List.range i := by
    rw [List.mem_range]
    omega
  have hiA : i ∉ List.range i := by
    rw [List.mem_range]
    omega
  have hiB : i ∉ List.range' (i + 1) (L - (i + 1)) := by
    rw [List.mem_range']
    rintro ⟨k, hk, he⟩
    omega
  obtain ⟨hcgAj, -⟩ := pass2_untouched _ _ _ _ _ _ _ hmA j hjA
  have hAA : Aligned cgA tgA := pass2_aligned _ _ _ _ _ _ _ hmA hA1
  simp only [pass2] at hstep
  split at hstep
  · exact absurd hstep (by simp)
  · rename_i hgA
    obtain ⟨hui, -⟩ := pass2_untouched _ _ _ _ _ _ _ hstep i hiB
    have hcgi : cgA[i]? = some gi := by rw [← hui]; exact hri
    have := hAA i gi hcgi hWi
    rw [hgA] at this
    simp at this
  · rename_i g hgA
    split at hstep
    · rename_i hcont
      simp only [Option.bind_eq_bind, Option.bind_eq_some] at hstep
      obtain ⟨cgB, hcgB, pos, hpos, twB, htwB, tgB, htgB, hstep⟩ := hstep
      obtain ⟨hui, -⟩ := pass2_untouched _ _ _ _ _ _ _ hstep i hiB
      obtain ⟨hilB, rfl⟩ := listSet_eq_some hcgB
      have hcgi : (cgA.set i (⟨g, .Present⟩ : Guess))[i]? = some gi := by
        rw [← hui]; exact hri
      rw [List.getElem?_set_self hilB] at hcgi
      injection hcgi with hcgi
      rw [← hcgi] at hWi
      simp at hWi
    · rename_i hcont
      obtain ⟨hui, -⟩ := pass2_untouched _ _ _ _ _ _ _ hstep i hiB
      have hcgi : cgA[i]? = some gi := by rw [← hui]; exact hri
      have htgi := hAA i gi hcgi hWi
      rw [hgA] at htgi
      have hgeq : g = gi.letter := by
        injection htgi with htgi
        injection htgi
      have hnm : (some gi.letter) ∉ twA := by
        intro hmem
        apply hcont
        rw [hgeq]
        simpa using hmem
      have h0 : twA.count (some gi.letter) = 0 := List.count_eq_zero.2 hnm
      obtain ⟨l, o⟩ := gj
      simp only at hlet hPj
      subst hPj
      rw [← hlet] at hrj
      have hAj := pass2_zero_mono _ _ _ _ _ _ _ _ hstep h0 j hrj
      rw [hcgAj] at hAj
      exact hN1 j _ hAj rfl

/-- Claim C1: for every secret `S` and guess `G` whose scoring completes,
the classification grants `Present`/`Correct` marks for a letter only up
to that letter's number of occurrences in `S` (`countMarked` counts the
non-`Wrong` marks, so every excess duplicate position is `Wrong`), and
when unresolved positions compete for remaining occurrences the leftmost
position wins: a later `Present` with the same letter as an earlier
`Wrong` position is impossible. -/
theorem scorer_respects_multiplicity {L : Nat} {S G : List Char} {result : List Guess}
    (h : score L S G = some result) :
    (∀ c : Char, countMarked c result ≤ S.count c) ∧
    (∀ (i j : Nat) (gi gj : Guess), i < j →
      result[i]? = some gi → result[j]? = some gj →
      gi.letter = gj.letter → gi.occurrence = Occurrence.Wrong →
      gj.occurrence ≠ Occurrence.Present) :=
  ⟨fun c => score_count_le h c, score_leftmost h⟩

/-- Witness for C1 on the fixture secret "rises" with guess "sises". -/
theorem scorer_respects_multiplicity_witness :
    countMarked 's'
        [⟨'s', .Wrong⟩, ⟨'i', .Correct⟩, ⟨'s', .Correct⟩, ⟨'e', .Correct⟩, ⟨'s', .Correct⟩]
      ≤ List.count 's' "rises".toList ∧
    (⟨'s', Occurrence.Wrong⟩ : Guess).occurrence ≠ Occurrence.Present := by
  have h := @scorer_respects_multiplicity 5 "rises".toList "sises".toList
    [⟨'s', .Wrong⟩, ⟨'i', .Correct⟩, ⟨'s', .Correct⟩, ⟨'e', .Correct⟩,
      ⟨'s', .Correct⟩] (by decide)
  exact ⟨h.1 's', by decide⟩

theorem listSet_of_lt {α : Type} {l : List α} {i : Nat} (a : α) (h : i < l.length) :
    listSet l i a = some (l.set i a) := by
  simp [listSet, h]

theorem pass2_skip :
    ∀ (is : List Nat) (cg : List Guess) (tg tw : List (Option Char)),
      (∀ i ∈ is, tg[i]? = some none) →
      pass2 is cg tg tw = some (cg, tg, tw) := by
  intro is
  induction is with
  | nil => intro cg tg tw _; rfl
  | cons i is ih =>
    intro cg tg tw hskip
    have hi := hskip i (List.mem_cons_self i is)
    simp only [pass2, hi]
    exact ih cg tg tw fun i' hi' => hskip i' (List.mem_cons_of_mem i hi')

theorem pass1_diag :
    ∀ (is : List Nat) (cg : List Guess) (tg : List (Option Char)),
      is.Nodup →
      (∀ i ∈ is, ∃ c : Char, tg[i]? = some (some c)) →
      (∀ i ∈ is, i < cg.length) →
      ∃ (cg' : List Guess) (tg' : List (Option Char)),
        pass1 is cg tg tg = some (cg', tg', tg') ∧
        (∀ (k : Nat), k ∉ is → cg'[k]? = cg[k]? ∧ tg'[k]? = tg[k]?) ∧
        (∀ k ∈ is, tg'[k]? = some none ∧
          ∃ c, tg[k]? = some (some c) ∧ cg'[k]? = some (⟨c, .Correct⟩ : Guess)) := by
  intro is
  induction is with
  | nil =>
    intro cg tg _ _ _
    exact ⟨cg, tg, rfl, fun k _ => ⟨rfl, rfl⟩, fun k hk => absurd hk (List.not_mem_nil k)⟩
  | cons i is ih =>
    intro cg tg hnd hsome hlt
    obtain ⟨c, hc⟩ := hsome i (List.mem_cons_self i is)
    have hlc : i < cg.length := hlt i (List.mem_cons_self i is)
    have hltg : i < tg.length := by
      obtain ⟨h1, -⟩ := List.getElem?_eq_some_iff.1 hc
      exact h1
    have hnotmem : i ∉ is := (List.nodup_cons.1 hnd).1
    have hndtail : is.Nodup := (List.nodup_cons.1 hnd).2
    obtain ⟨cg', tg', hrun, huntouched, hmarked⟩ :=
      ih (cg.set i ⟨c, .Correct⟩) (tg.set i none) hndtail
        (fun i' hi' => by
          have hne : i ≠ i' := fun he => hnotmem (he ▸ hi')
          rw [List.getElem?_set_ne hne]
          exact hsome i' (List.mem_cons_of_mem i hi'))
        (fun i' hi' => by
          rw [List.length_set]
          exact hlt i' (List.mem_cons_of_mem i hi'))
    refine ⟨cg', tg', ?_, ?_, ?_⟩
    · simp only [pass1, hc, if_pos rfl, listSet_of_lt _ hlc, listSet_of_lt _ hltg,
        Option.bind_eq_bind, Option.some_bind]
      exact hrun
    · intro k hk
      have hki : k ≠ i := fun he => hk (he ▸ List.mem_cons_self i is)
      have hkis : k ∉ is := fun hm => hk (List.mem_cons_of_mem i hm)
      obtain ⟨h1, h2⟩ := huntouched k hkis
      rw [h1, h2, List.getElem?_set_ne (Ne.symm hki), List.getElem?_set_ne (Ne.symm hki)]
      exact ⟨rfl, rfl⟩
    · intro k hk
      rcases List.mem_cons.1 hk with rfl | hkis
      · obtain ⟨h1, h2⟩ := huntouched k hnotmem
        rw [h1, h2, List.getElem?_set_self hlc, List.getElem?_set_self hltg]
        exact ⟨rfl, c, hc, rfl⟩
      · obtain ⟨h1, ⟨c', hc', hcg'⟩⟩ := hmarked k hkis
        have hki : k ≠ i := fun he => hnotmem (he ▸ hkis)
        rw [List.getElem?_set_ne (Ne.symm hki)] at hc'
        exact ⟨h1, c', hc', hcg'⟩

/-- Scoring a guess identical to the secret marks every position
`Correct`. -/
theorem score_self {L : Nat} {w : List Char} (hw : w.length = L) :
    score L w w = some (w.map fun c => (⟨c, .Correct⟩ : Guess)) := by
  have hsome : ∀ i ∈ List.range L, ∃ c : Char, (w.map some)[i]? = some (some c) := by
    intro i hi
    rw [List.mem_range] at hi
    have hiw : i < w.length := by omega
    refine ⟨w[i], ?_⟩
    rw [List.getElem?_map, List.getElem?_eq_getElem hiw]
    rfl
  obtain ⟨cg0, hcg0⟩ : ∃ cg0, pass0 (w.map some) (List.range L) = some cg0 := by
    clear hw
    generalize List.range L = is at hsome ⊢
    induction is with
    | nil => exact ⟨[], rfl⟩
    | cons i is ih =>
      obtain ⟨c, hc⟩ := hsome i (List.mem_cons_self i is)
      obtain ⟨rest, hrest⟩ := ih fun i' hi' => hsome i' (List.mem_cons_of_mem i hi')
      exact ⟨⟨c, .Wrong⟩ :: rest, by simp only [pass0, hc, hrest, Option.map_some']⟩
  obtain ⟨hlen0, hspec0⟩ := pass0_spec _ _ _ hcg0
  obtain ⟨cg1, tg1, hrun, huntouched, hmarked⟩ :=
    pass1_diag (List.range L) cg0 (w.map some) (List.nodup_range L) hsome
      (fun i hi => by
        rw [hlen0]
        exact List.mem_range.1 hi |> fun h => by simpa using h)
  have hskip : ∀ i ∈ List.range L, tg1[i]? = some none :=
    fun i hi => (hmarked i hi).1
  have hcg1 : cg1 = w.map fun c => (⟨c, .Correct⟩ : Guess) := by
    apply List.ext_getElem?
    intro k
    by_cases hkL : k < L
    · obtain ⟨-, c, hc, hcg⟩ := hmarked k (List.mem_range.2 hkL)
      have hkw : k < w.length := by omega
      rw [List.getElem?_map, List.getElem?_eq_getElem hkw] at hc ⊢
      simp only [Option.map_some', Option.some.injEq] at hc
      rw [hcg, ← hc]
      rfl
    · obtain ⟨h1, -⟩ := huntouched k (by rw [List.mem_range]; omega)
      rw [h1]
      have e1 : cg0[k]? = none := by
        rw [List.getElem?_eq_none]
        rw [hlen0, List.length_range]
        omega
      have e2 : (w.map fun c => (⟨c, .Correct⟩ : Guess))[k]? = none := by
        rw [List.getElem?_eq_none]
        rw [List.length_map]
        omega
      rw [e1, e2]
  have hpass2 := pass2_skip (List.range L) cg1 tg1 tg1 hskip
  simp only [score, Option.bind_eq_bind, hcg0, Option.some_bind, hrun, hpass2,
    Option.pure_def]
  simpa using hcg1

theorem check_win_guesses (w : Wordle) (guess : List Char) :
    (check_win w guess).guesses = w.guesses := by
  unfold check_win
  split <;> rfl

theorem check_win_settings (w : Wordle) (guess : List Char) :
    (check_win w guess).settings = w.settings := by
  unfold check_win
  split <;> rfl

/-- A game whose secret is stored in upper case (a custom word list is
free to contain such entries; `Wordle::new` never normalises the chosen
word). -/
def upperGame : Wordle :=
  { guesses := [], word := "HELLO".toList, word_list := ["HELLO".toList],
    settings := { word_length := 5, max_guesses := 5,
                  word_list := .Custom ["HELLO".toList] },
    solved := false }

/-- Counterexample to C2 as stated: the normalised guess "HELLO" equals
the normalised secret, yet submitting it does not set `solved` — the code
compares the lowercased guess against the secret as stored, which is
never case-normalised. -/
theorem normalized_win_detection_cex :
    normalize "HELLO".toList = normalize upperGame.word ∧
    (guess_word false upperGame "HELLO".toList).map (fun p => (p.1.solved, p.2)) =
      some (false, none) := by decide

/-- Claim C2 (amended): submitting a guess whose trimmed lowercased form
equals the secret word exactly as stored (the secret itself is not
normalised) sets `solved` and records an all-`Correct` classified
guess. -/
theorem exact_secret_guess_wins {debug : Bool} {w : Wordle} {raw : List Char}
    (hn : normalize raw = w.word)
    (hb : utf8Len w.word = w.settings.word_length)
    (hc : w.word.length = w.settings.word_length)
    (hv : valid_word debug w w.word = true) :
    guess_word debug w raw =
      some ({ w with
                solved := true,
                guesses := w.guesses ++ [w.word.map (fun c => (⟨c, .Correct⟩ : Guess))] },
            none) ∧
    ∀ e ∈ w.word.map (fun c => (⟨c, .Correct⟩ : Guess)),
      e.occurrence = Occurrence.Correct := by
  constructor
  · simp only [guess_word, hn, hb, ne_eq, not_true_eq_false, if_false, hv,
      Bool.true_eq_false, score_self hc, check_win, if_pos rfl]
    simp
  · intro e he
    rw [List.mem_map] at he
    obtain ⟨c, -, rfl⟩ := he
    rfl

/-- A plain lower-case game used to witness C2. -/
def helloGame : Wordle :=
  { guesses := [], word := "hello".toList, word_list := ["hello".toList],
    settings := { word_length := 5, max_guesses := 5,
                  word_list := .Custom ["hello".toList] },
    solved := false }

/-- Witness for C2 (amended) on a concrete game. -/
theorem exact_secret_guess_wins_witness :
    guess_word false helloGame "hello".toList =
      some ({ helloGame with
                solved := true,
                guesses := helloGame.guesses ++
                  [helloGame.word.map (fun c => (⟨c, .Correct⟩ : Guess))] },
            none) ∧
    ∀ e ∈ helloGame.word.map (fun c => (⟨c, .Correct⟩ : Guess)),
      e.occurrence = Occurrence.Correct :=
  exact_secret_guess_wins (by decide) (by decide) (by decide) (by decide)

/-- A game allowing a single guess, about to be solved by it. -/
def lastGuessGame : Wordle :=
  { guesses := [], word := "crane".toList, word_list := ["crane".toList],
    settings := { word_length := 5, max_guesses := 1,
                  word_list := .Custom ["crane".toList] },
    solved := false }

/-- Counterexample to C3 as stated: winning on the guess that reaches
`max_guesses` leaves the game both solved and failed, since `is_failed`
only compares the guess count with `max_guesses` and ignores `solved`. -/
theorem solved_and_failed_cex :
    (guess_word false lastGuessGame "crane".toList).map
      (fun p => (p.1.is_solved, p.1.is_failed, p.2)) = some (true, true, none) := by
  decide

/-- Claim C3 (amended): `solved` and `is_failed` are never simultaneously
true except when the game is solved on the guess that reaches the
configured maximum; whenever fewer guesses are recorded, `is_failed` is
false no matter the `solved` flag. -/
theorem not_failed_below_max {w : Wordle}
    (h : w.guesses.length < w.settings.max_guesses) :
    ¬(w.is_solved = true ∧ w.is_failed = true) := by
  rintro ⟨-, hf⟩
  simp only [Wordle.is_failed, Wordle.max_guesses, beq_iff_eq] at hf
  omega

/-- A solved game with spare guess budget, witnessing C3 (amended). -/
def earlyWinGame : Wordle :=
  { guesses := [["crane".toList.map fun c => (⟨c, .Correct⟩ : Guess)].head!],
    word := "crane".toList, word_list := ["crane".toList],
    settings := { word_length := 5, max_guesses := 5,
                  word_list := .Custom ["crane".toList] },
    solved := true }

/-- Witness for C3 (amended). -/
theorem not_failed_below_max_witness :
    ¬(earlyWinGame.is_solved = true ∧ earlyWinGame.is_failed = true) :=
  not_failed_below_max (by decide)

/-- Case analysis of `guess_word`: either a validation error leaves the
state untouched, or the guess is scored, appended, and the win check
runs.  `NoGuessesLeft` is never produced. -/
theorem guess_word_cases {debug : Bool} {w : Wordle} {raw : List Char}
    {w' : Wordle} {e : Option WordleError}
    (h : guess_word debug w raw = some (w', e)) :
    (w' = w ∧ (e = some (.WrongLength w.settings.word_length) ∨
               e = some (.NotAWord (normalize raw)))) ∨
    (e = none ∧ ∃ completed,
      score w.settings.word_length w.word (normalize raw) = some completed ∧
      w' = { check_win w (normalize raw) with
              guesses := (check_win w (normalize raw)).guesses ++ [completed] }) := by
  simp only [guess_word] at h
  split at h
  · injection h with h
    obtain ⟨rfl, rfl⟩ := Prod.mk.injEq .. ▸ h
    · exact Or.inl ⟨rfl, Or.inl rfl⟩
  · split at h
    · injection h with h
      obtain ⟨rfl, rfl⟩ := Prod.mk.injEq .. ▸ h
      · exact Or.inl ⟨rfl, Or.inr rfl⟩
    · split at h
      · exact absurd h (by simp)
      · rename_i completed hsc
        injection h with h
        obtain ⟨rfl, rfl⟩ := Prod.mk.injEq .. ▸ h
        · exact Or.inr ⟨rfl, completed, hsc, rfl⟩

/-- A game whose guess budget is already exhausted (`max_guesses = 0`). -/
def exhaustedGame : Wordle :=
  { guesses := [], word := "world".toList, word_list := ["world".toList],
    settings := { word_length := 5, max_guesses := 0,
                  word_list := .Custom ["world".toList] },
    solved := false }

/-- Counterexample to C4 as stated: with the budget exhausted
(`is_failed` already true), `guess_word` still scores and records the
guess and reports no error at all — it contains no budget check. -/
theorem no_budget_check_cex :
    exhaustedGame.is_failed = true ∧
    (guess_word false exhaustedGame "hello".toList).map
      (fun p => (p.1.guesses.length, p.2)) = some (1, none) := by decide

/-- Claim C4 (amended): `guess_word` never fails with `NoGuessesLeft`
(budget exhaustion is enforced only by the caller's loop); even on a
finished game a valid guess is scored and recorded. -/
theorem guess_word_never_checks_budget {debug : Bool} {w : Wordle}
    {raw : List Char} {w' : Wordle} {e : Option WordleError}
    (hterm : w.is_failed = true ∨ w.is_solved = true)
    (h : guess_word debug w raw = some (w', e)) :
    (∀ s, e ≠ some (.NoGuessesLeft s)) ∧
    (e = none → w'.guesses.length = w.guesses.length + 1) := by
  rcases guess_word_cases h with ⟨rfl, herr⟩ | ⟨rfl, completed, hsc, rfl⟩
  · constructor
    · rcases herr with rfl | rfl <;> intro s hne <;> simp at hne
    · intro he
      rcases herr with rfl | rfl <;> simp at he
  · refine ⟨by intro s hne; simp at hne, fun _ => ?_⟩
    simp [check_win_guesses]

/-- The classified guess recorded when "hello" is scored against the
secret "world". -/
def worldHelloResult : List Guess :=
  [⟨'h', .Wrong⟩, ⟨'e', .Wrong⟩, ⟨'l', .Wrong⟩, ⟨'l', .Correct⟩, ⟨'o', .Present⟩]

/-- Witness for C4 (amended) on a concrete exhausted game. -/
theorem guess_word_never_checks_budget_witness :
    (∀ s, (none : Option WordleError) ≠ some (.NoGuessesLeft s)) ∧
    ((none : Option WordleError) = none →
      ({ exhaustedGame with guesses := [worldHelloResult] } : Wordle).guesses.length =
        exhaustedGame.guesses.length + 1) :=
  @guess_word_never_checks_budget false exhaustedGame "hello".toList
    { exhaustedGame with guesses := [worldHelloResult] } none
    (Or.inl (by decide)) (by decide)

theorem guess_word_settings_len {debug : Bool} {w : Wordle} {raw : List Char}
    {w' : Wordle} {e : Option WordleError}
    (h : guess_word debug w raw = some (w', e)) :
    w'.settings = w.settings ∧ w'.guesses.length ≤ w.guesses.length + 1 := by
  rcases guess_word_cases h with ⟨rfl, -⟩ | ⟨-, completed, -, rfl⟩
  · exact ⟨rfl, Nat.le_succ _⟩
  · constructor
    · simp [check_win_settings]
    · simp [check_win_guesses]

/-- Another exhausted game (`max_guesses = 0`), for C5. -/
def exhaustedGame2 : Wordle :=
  { guesses := [], word := "miner".toList, word_list := ["miner".toList],
    settings := { word_length := 5, max_guesses := 0,
                  word_list := .Custom ["miner".toList] },
    solved := false }

/-- Counterexample to C5 as stated: a raw `guess_word` call pushes past
`max_guesses`; the bound is not enforced by the submit operation
itself. -/
theorem guess_count_exceeds_max_cex :
    (guess_word false exhaustedGame2 "miner".toList).map
      (fun p => decide (p.1.guesses.length ≤ p.1.settings.max_guesses)) =
      some false := by decide

/-- Claim C5 (amended): along the interactive loop of `main`, which stops
submitting as soon as `is_failed` holds, the number of recorded guesses
never exceeds `max_guesses`. -/
theorem main_loop_guess_bound {debug : Bool} :
    ∀ (inputs : List (List Char)) (w w' : Wordle),
      main_loop debug w inputs = some w' →
      w.guesses.length ≤ w.settings.max_guesses →
      w'.guesses.length ≤ w'.settings.max_guesses := by
  intro inputs
  induction inputs with
  | nil =>
    intro w w' h hb
    simp only [main_loop, Option.some.injEq] at h
    subst h
    exact hb
  | cons raw rest ih =>
    intro w w' h hb
    simp only [main_loop] at h
    split at h
    · injection h with h
      subst h
      exact hb
    · rename_i hnf
      split at h
      · exact absurd h (by simp)
      · rename_i w1 e hgw
        obtain ⟨hset, hlen⟩ := guess_word_settings_len hgw
        have hne : w.guesses.length ≠ w.settings.max_guesses := by
          simp only [Wordle.is_failed, Wordle.max_guesses, beq_iff_eq] at hnf
          simpa using hnf
        have hb1 : w1.guesses.length ≤ w1.settings.max_guesses := by
          rw [hset]
          omega
        split at h
        · injection h with h
          subst h
          exact hb1
        · exact ih w1 w' h hb1

/-- A one-guess game driven by the main loop, for the C5 witness. -/
def loopGame : Wordle :=
  { guesses := [], word := "about".toList, word_list := ["about".toList],
    settings := { word_length := 5, max_guesses := 1,
                  word_list := .Custom ["about".toList] },
    solved := false }

/-- The classified guess recorded when "zzzzz" is scored against
"about". -/
def aboutZResult : List Guess :=
  [⟨'z', .Wrong⟩, ⟨'z', .Wrong⟩, ⟨'z', .Wrong⟩, ⟨'z', .Wrong⟩, ⟨'z', .Wrong⟩]

/-- Witness for C5 (amended) on a concrete loop run. -/
theorem main_loop_guess_bound_witness :
    ({ loopGame with guesses := [aboutZResult] } : Wordle).guesses.length ≤
      ({ loopGame with guesses := [aboutZResult] } : Wordle).settings.max_guesses :=
  @main_loop_guess_bound false ["zzzzz".toList] loopGame
    { loopGame with guesses := [aboutZResult] } (by decide) (by decide)

/-- Claim C6: a raw guess whose trimmed, lowercased form does not have
the configured length (as measured by the code, in UTF-8 bytes) is
rejected with `WrongLength` and the state is returned untouched: nothing
is recorded, the count is unchanged and `solved` is untouched. -/
theorem wrong_length_rejected {debug : Bool} {w : Wordle} {raw : List Char}
    (h : utf8Len (normalize raw) ≠ w.settings.word_length) :
    guess_word debug w raw = some (w, some (.WrongLength w.settings.word_length)) := by
  simp only [guess_word, if_pos h]

/-- A short game used to witness C6. -/
def witnessGame6 : Wordle :=
  { guesses := [], word := "pivot".toList, word_list := ["pivot".toList],
    settings := { word_length := 5, max_guesses := 5,
                  word_list := .Custom ["pivot".toList] },
    solved := false }

/-- Witness for C6 on a three-letter guess. -/
theorem wrong_length_rejected_witness :
    guess_word false witnessGame6 "cat".toList =
      some (witnessGame6, some (.WrongLength witnessGame6.settings.word_length)) :=
  wrong_length_rejected (by decide)

/-- The game used to exhibit the inverted debug check of C7. -/
def craneGame : Wordle :=
  { guesses := [], word := "crane".toList, word_list := ["crane".toList],
    settings := { word_length := 5, max_guesses := 5,
                  word_list := .Custom ["crane".toList] },
    solved := false }

/-- Claim C7 evaluation: `valid_word` reads
`cfg!(not(debug)) || self.word_list.contains(..)`, so the word-list check
is enforced exactly when the `debug` cfg is set and bypassed otherwise —
the opposite of its own comment ("allow any word if we're in debug
mode") and of the claim.  With the `debug` cfg set, a correct-length
word outside the list is rejected with `NotAWord` and nothing is
recorded; without it, any correct-length word is accepted. -/
theorem debug_word_check_inverted :
    valid_word true craneGame "world".toList = false ∧
    guess_word true craneGame "world".toList =
      some (craneGame, some (.NotAWord "world".toList)) ∧
    valid_word false craneGame "world".toList = true ∧
    (guess_word false craneGame "world".toList).map (fun p => p.2) = some none := by
  decide

/-- Claim C8: with a non-empty custom word list the constructed game's
secret is drawn from exactly that list. -/
theorem new_secret_from_custom_list {builtin wl : List (List Char)}
    {settings : WordleSettings} {k : Nat}
    (hs : settings.word_list = WordList.Custom wl) (hne : wl ≠ []) :
    ∃ st, Wordle.new builtin settings k = some st ∧
      st.word ∈ wl ∧ st.word_list = wl := by
  have hlen : 0 < wl.length := List.length_pos.2 hne
  have hmod : k % wl.length < wl.length := Nat.mod_lt k hlen
  have hemp : wl.isEmpty = false := by
    cases wl with
    | nil => exact absurd rfl hne
    | cons a l => rfl
  simp only [Wordle.new, hs, choose, hemp, Bool.false_eq_true, if_false,
    List.getElem?_eq_getElem hmod]
  exact ⟨_, rfl, List.getElem_mem hmod, rfl⟩

/-- Witness for C8 on a concrete one-word list. -/
theorem new_secret_from_custom_list_witness :
    ∃ st, Wordle.new []
        { word_length := 5, max_guesses := 5,
          word_list := .Custom ["apple".toList] } 3 = some st ∧
      st.word ∈ ["apple".toList] ∧ st.word_list = ["apple".toList] :=
  new_secret_from_custom_list rfl (by decide)

theorem pass0_total :
    ∀ (is : List Nat) (tg : List (Option Char)),
      (∀ i ∈ is, ∃ c : Char, tg[i]? = some (some c)) →
      ∃ cg, pass0 tg is = some cg := by
  intro is
  induction is with
  | nil => intro tg _; exact ⟨[], rfl⟩
  | cons i is ih =>
    intro tg hsome
    obtain ⟨c, hc⟩ := hsome i (List.mem_cons_self i is)
    obtain ⟨rest, hrest⟩ := ih tg fun i' hi' => hsome i' (List.mem_cons_of_mem i hi')
    exact ⟨⟨c, .Wrong⟩ :: rest, by simp only [pass0, hc, hrest, Option.map_some']⟩

theorem pass1_total :
    ∀ (is : List Nat) (cg : List Guess) (tg tw : List (Option Char)),
      is.Nodup →
      (∀ i ∈ is, i < cg.length ∧ (∃ c, tg[i]? = some (some c)) ∧
        (∃ c, tw[i]? = some (some c))) →
      ∃ r, pass1 is cg tg tw = some r := by
  intro is
  induction is with
  | nil => intro cg tg tw _ _; exact ⟨(cg, tg, tw), rfl⟩
  | cons i is ih =>
    intro cg tg tw hnd hcond
    obtain ⟨hic, ⟨g, hg⟩, ⟨v, hv⟩⟩ := hcond i (List.mem_cons_self i is)
    have hitg : i < tg.length := (List.getElem?_eq_some_iff.1 hg).1
    have hitw : i < tw.length := (List.getElem?_eq_some_iff.1 hv).1
    have hnotmem : i ∉ is := (List.nodup_cons.1 hnd).1
    have hndtail : is.Nodup := (List.nodup_cons.1 hnd).2
    by_cases hgv : (some g : Option Char) = some v
    · obtain ⟨r, hr⟩ := ih (cg.set i ⟨v, .Correct⟩) (tg.set i none) (tw.set i none) hndtail
        (fun i' hi' => by
          have hne : i ≠ i' := fun he => hnotmem (he ▸ hi')
          obtain ⟨h1, h2, h3⟩ := hcond i' (List.mem_cons_of_mem i hi')
          rw [List.length_set, List.getElem?_set_ne hne, List.getElem?_set_ne hne]
          exact ⟨h1, h2, h3⟩)
      refine ⟨r, ?_⟩
      simp only [pass1, hg, hv, if_pos hgv, listSet_of_lt _ hic, listSet_of_lt _ hitg,
        listSet_of_lt _ hitw, Option.bind_eq_bind, Option.some_bind]
      exact hr
    · obtain ⟨r, hr⟩ := ih cg tg tw hndtail
        (fun i' hi' => hcond i' (List.mem_cons_of_mem i hi'))
      refine ⟨r, ?_⟩
      simp only [pass1, hg, hv, if_neg hgv]
      exact hr

theorem pass2_total :
    ∀ (is : List Nat) (cg : List Guess) (tg tw : List (Option Char)),
      (∀ i ∈ is, i < cg.length ∧ i < tg.length) →
      ∃ r, pass2 is cg tg tw = some r := by
  intro is
  induction is with
  | nil => intro cg tg tw _; exact ⟨(cg, tg, tw), rfl⟩
  | cons i is ih =>
    intro cg tg tw hcond
    obtain ⟨hic, hit⟩ := hcond i (List.mem_cons_self i is)
    have htail : ∀ i' ∈ is, i' < cg.length ∧ i' < tg.length :=
      fun i' hi' => hcond i' (List.mem_cons_of_mem i hi')
    obtain ⟨gv, hgv⟩ : ∃ gv, tg[i]? = some gv := ⟨tg[i], List.getElem?_eq_getElem hit⟩
    cases gv with
    | none =>
      obtain ⟨r, hr⟩ := ih cg tg tw htail
      refine ⟨r, ?_⟩
      simp only [pass2, hgv]
      exact hr
    | some g =>
      by_cases hcont : tw.contains (some g) = true
      · have hmem : (some g : Option Char) ∈ tw := by simpa using hcont
        obtain ⟨pos, hpos⟩ : ∃ pos, position (fun f => f == some g) tw = some pos := by
          have := position_isSome (p := fun f => (f == some g)) ⟨some g, hmem, by simp⟩
          exact Option.isSome_iff_exists.1 this
        obtain ⟨a, ha, -⟩ := position_eq_some hpos
        have hpl : pos < tw.length := (List.getElem?_eq_some_iff.1 ha).1
        obtain ⟨r, hr⟩ := ih (cg.set i ⟨g, .Present⟩) (tg.set i none) (tw.set pos none)
          (fun i' hi' => by
            rw [List.length_set, List.length_set]
            exact htail i' hi')
        refine ⟨r, ?_⟩
        simp only [pass2, hgv, if_pos hcont, Option.bind_eq_bind, listSet_of_lt _ hic,
          listSet_of_lt _ hit, listSet_of_lt _ hpl, hpos, Option.some_bind]
        exact hr
      · obtain ⟨r, hr⟩ := ih cg tg tw htail
        refine ⟨r, ?_⟩
        simp only [pass2, hgv, if_neg hcont]
        exact hr

/-- Totality of the scoring passes when both words have exactly the
configured number of characters. -/
theorem score_total {L : Nat} {w g : List Char}
    (hw : w.length = L) (hg : g.length = L) :
    ∃ r, score L w g = some r := by
  have hsome : ∀ (u : List Char), u.length = L →
      ∀ i ∈ List.range L, ∃ c : Char, (u.map some)[i]? = some (some c) := by
    intro u hu i hi
    rw [List.mem_range] at hi
    have hiu : i < u.length := by omega
    exact ⟨u[i], by rw [List.getElem?_map, List.getElem?_eq_getElem hiu]; rfl⟩
  obtain ⟨cg0, hcg0⟩ := pass0_total (List.range L) (g.map some) (hsome g hg)
  have hlen0 := (pass0_spec _ _ _ hcg0).1
  obtain ⟨⟨cg1, tg1, tw1⟩, hp1⟩ :=
    pass1_total (List.range L) cg0 (g.map some) (w.map some) (List.nodup_range L)
      (fun i hi => by
        have hiL : i < L := List.mem_range.1 hi
        refine ⟨by rw [hlen0, List.length_range]; omega, ?_, ?_⟩
        · obtain ⟨c, hc⟩ := hsome g hg i hi
          exact ⟨c, hc⟩
        · obtain ⟨c, hc⟩ := hsome w hw i hi
          exact ⟨c, hc⟩)
  obtain ⟨hs1, hs2, hs3⟩ := pass1_sizes _ _ _ _ _ _ _ hp1
  obtain ⟨⟨cg2, tg2, tw2⟩, hp2⟩ :=
    pass2_total (List.range L) cg1 tg1 tw1
      (fun i hi => by
        have hiL : i < L := List.mem_range.1 hi
        constructor
        · rw [hs1, hlen0, List.length_range]; omega
        · rw [hs2, List.length_map]; omega)
  exact ⟨cg2, by
    simp only [score, Option.bind_eq_bind, hcg0, Option.some_bind, hp1, hp2,
      Option.pure_def]⟩

/-- Settings whose custom word list holds a word shorter than the
configured word length — `Wordle::new` accepts them silently. -/
def shortSecretSettings : WordleSettings :=
  { word_length := 5, max_guesses := 5, word_list := .Custom ["abc".toList] }

/-- The game built from `shortSecretSettings`: its secret "abc" has only
3 characters while `word_length` is 5. -/
def shortSecretGame : Wordle :=
  { guesses := [], word := "abc".toList, word_list := ["abc".toList],
    settings := shortSecretSettings, solved := false }

/-- Claim C9: all indexing and unwraps inside the scoring passes succeed
whenever the secret has exactly `word_length` characters and so does the
guess (as holds for single-byte guesses that passed the length check);
but construction never validates the secret's length, and on a game
whose secret is shorter than `word_length` the very same scoring code
indexes out of bounds (a panic, modelled as `none`). -/
theorem scoring_total_iff_secret_full_length {L : Nat} {w g : List Char}
    (hw : w.length = L) (hg : g.length = L) :
    (score L w g).isSome = true ∧
    (Wordle.new [] shortSecretSettings 0 = some shortSecretGame ∧
     shortSecretGame.word.length ≠ shortSecretGame.settings.word_length ∧
     guess_word false shortSecretGame "hello".toList = none) := by
  constructor
  · obtain ⟨r, hr⟩ := score_total hw hg
    rw [hr]
    rfl
  · exact ⟨by decide, by decide, by decide⟩

/-- Witness for C9 at a concrete full-length secret and guess. -/
theorem scoring_total_iff_secret_full_length_witness :
    (score 5 "hello".toList "crane".toList).isSome = true ∧
    (Wordle.new [] shortSecretSettings 0 = some shortSecretGame ∧
     shortSecretGame.word.length ≠ shortSecretGame.settings.word_length ∧
     guess_word false shortSecretGame "hello".toList = none) :=
  @scoring_total_iff_secret_full_length 5 "hello".toList "crane".toList
    (by decide) (by decide)

/-- A plain five-letter game used for C10. -/
def accentGame : Wordle :=
  { guesses := [], word := "plain".toList, word_list := ["plain".toList],
    settings := { word_length := 5, max_guesses := 5,
                  word_list := .Custom ["plain".toList] },
    solved := false }

/-- Claim C10: the length validation compares the UTF-8 byte length of
the normalised guess with `word_length`, not its character count: the
5-character guess "héllo" occupies 6 bytes and is rejected with
`WrongLength` even though its character count matches. -/
theorem length_check_counts_bytes :
    (normalize "héllo".toList).length = 5 ∧
    utf8Len (normalize "héllo".toList) = 6 ∧
    accentGame.settings.word_length = 5 ∧
    guess_word false accentGame "héllo".toList =
      some (accentGame, some (.WrongLength 5)) := by decide

end WordleGame
